import Mathlib

/-!
Verification of the labeled file-discovery utility (`io.py`): a shallow
embedding of `enum_files`, `shuffle_paths_labels`, `find_files`,
`find_files_with_label_csv` and `find_files_no_label`, followed by theorems
about them. External capabilities are parameters: the glob listing
(`tf.gfile.Glob`) is a function from a glob pattern to the matched paths,
`random.shuffle` is a reordering function assumed (in the theorems) to
produce a permutation of its input, and the parsed CSV manifest is a list of
rows. Fallible operations return `Except PyError`.
-/

namespace Fenwicks

/-- Error classes raised by the Python code: `keyError` models a `KeyError`
raised by a dict lookup (`key_id[row[label_col]]`), `valueError` models the
`ValueError` raised by unpacking `zip(*c)` into two variables when `c` is
empty. -/
inductive PyError where
  | keyError (key : String)
  | valueError
deriving DecidableEq, Repr

/-- Equality of `Except` values is decidable when it is on both sides. -/
instance {ε α : Type} [DecidableEq ε] [DecidableEq α] :
    DecidableEq (Except ε α) := fun a b =>
  match a, b with
  | .error e, .error f =>
    if h : e = f then isTrue (h ▸ rfl)
    else isFalse (fun hc => h (Except.error.inj hc))
  | .error _, .ok _ => isFalse (fun hc => Except.noConfusion hc)
  | .ok _, .error _ => isFalse (fun hc => Except.noConfusion hc)
  | .ok x, .ok y =>
    if h : x = y then isTrue (h ▸ rfl)
    else isFalse (fun hc => h (Except.ok.inj hc))

/-- Embedding of `os.path.join(a, b)` for the cases exercised here: an
absolute second component replaces the first; an empty or slash-terminated
first component gets no extra separator. -/
def path_join (a b : String) : String :=
  if b.data.head? = some '/' then b
  else if a = "" then b
  else if a.data.getLast? = some '/' then a ++ b
  else a ++ "/" ++ b

/-- Embedding of `enum_files`: builds the pattern `data_dir/*.<ext>` and asks
the external listing capability `fs` (modelling `tf.gfile.Glob`) for the
matching paths; a pattern with no matches (including a missing directory)
yields the empty list. -/
def enum_files (fs : String → List String) (data_dir : String)
    (file_ext : String) : List String :=
  let file_pattern := path_join data_dir ("*." ++ file_ext)
  fs file_pattern

/-- Embedding of `shuffle_paths_labels`: `c = list(zip(paths, labels))` is
reordered by `random.shuffle`, modelled by the external parameter `sh`
(theorems assume `(sh c).Perm c`); unpacking `paths, labels = zip(*c)` raises
`ValueError` when `c` is empty and otherwise returns the two projections. -/
def shuffle_paths_labels (sh : List (String × Nat) → List (String × Nat))
    (paths : List String) (labels : List Nat) :
    Except PyError (List String × List Nat) :=
  let c := paths.zip labels
  let c2 := sh c
  if c2.isEmpty then .error .valueError
  else .ok (c2.map Prod.fst, c2.map Prod.snd)

/-- Embedding of the accumulation loop of `find_files`: for the label at
position `i`, appends the files matching `data_dir/label/*.<ext>` to the
path list and `i` once per matching file to the label list. -/
def find_files_loop (fs : String → List String) (data_dir : String)
    (labels : List String) (file_ext : String) : List String × List Nat :=
  labels.enum.foldl
    (fun acc p =>
      let matching_files := enum_files fs (path_join data_dir p.2) file_ext
      (acc.1 ++ matching_files,
       acc.2 ++ List.replicate matching_files.length p.1))
    ([], [])

/-- Embedding of `find_files`: runs the accumulation loop and optionally
shuffles both lists together. -/
def find_files (fs : String → List String)
    (sh : List (String × Nat) → List (String × Nat))
    (data_dir : String) (labels : List String) (shuffle : Bool)
    (file_ext : String) : Except PyError (List String × List Nat) :=
  let r := find_files_loop fs data_dir labels file_ext
  if shuffle then shuffle_paths_labels sh r.1 r.2
  else .ok r

/-- A manifest row, keeping the two columns the code reads:
`row[id_col]` and `row[label_col]`. A frame parsed by `pd.read_csv` is
rectangular, so both columns are present on every row. -/
structure Row where
  id : String
  label : String
deriving DecidableEq, Repr

/-- Lexicographic comparison of strings, decided on the underlying character
lists so that the kernel can evaluate it on literals. -/
instance (priority := 2000) strLEdec : @DecidableRel String (· ≤ ·) :=
  fun a b => decidable_of_iff (a.data ≤ b.data) String.le_iff_toList_le.symm

/-- Embedding of the line
`labels = sorted(train_labels[label_col].unique()) if _labels is None else _labels`:
the distinct values of the label column sorted lexicographically, unless an
explicit label list was supplied. -/
def labels_used (explicit : Option (List String))
    (train_labels : List Row) : List String :=
  match explicit with
  | none => List.insertionSort (· ≤ ·) ((train_labels.map Row.label).dedup)
  | some ls => ls

/-- Embedding of `dict([(label, idx) for idx, label in enumerate(labels)])`
looked up at `v`, with the position offset `i`: a later duplicate key
overwrites an earlier one, which is the recursion preferring the tail's
answer. -/
def key_id_from (i : Nat) (v : String) : List String → Option Nat
  | [] => none
  | a :: rest =>
    match key_id_from (i + 1) v rest with
    | some j => some j
    | none => if a = v then some i else none

/-- Lookup of `v` in the `key_id` dict built from `labels`: the position of
the last occurrence of `v`, or `none` (a `KeyError`) when absent. -/
def key_id (labels : List String) (v : String) : Option Nat :=
  key_id_from 0 v labels

/-- Embedding of the per-row lookups `key_id[row[label_col]]` of the manifest
loop: the label index of each row in order, failing with `KeyError` at the
first row whose label value is not a key. -/
def lookup_label_indices (labels : List String) :
    List Row → Except PyError (List Nat)
  | [] => .ok []
  | r :: rs =>
    match key_id labels r.label with
    | none => .error (.keyError r.label)
    | some i =>
      match lookup_label_indices labels rs with
      | .error e => .error e
      | .ok idxs => .ok (i :: idxs)

/-- Embedding of `find_files_with_label_csv`: the manifest is the parsed row
list `train_labels`; the loop builds, in row order, the path
`data_dir/<id>.<ext>` and the `key_id` index of each row's label value;
optional shuffling as in `find_files`; the label list in use is returned. -/
def find_files_with_label_csv (data_dir : String)
    (sh : List (String × Nat) → List (String × Nat))
    (train_labels : List Row) (shuffle : Bool) (file_ext : String)
    (explicit : Option (List String)) :
    Except PyError (List String × List Nat × List String) :=
  let labels := labels_used explicit train_labels
  match lookup_label_indices labels train_labels with
  | .error e => .error e
  | .ok filelabels =>
    let filepaths := train_labels.map
      (fun row => path_join data_dir (row.id ++ "." ++ file_ext))
    if shuffle then
      match shuffle_paths_labels sh filepaths filelabels with
      | .error e => .error e
      | .ok pl => .ok (pl.1, pl.2, labels)
    else .ok (filepaths, filelabels, labels)

/-- Embedding of `find_files_no_label`: a plain listing, optionally
reordered in place by `random.shuffle`, modelled by the parameter `sh`. -/
def find_files_no_label (fs : String → List String)
    (sh : List String → List String) (data_dir : String) (shuffle : Bool)
    (file_ext : String) : List String :=
  let filepaths := enum_files fs data_dir file_ext
  if shuffle then sh filepaths else filepaths

/-- Concrete listing capability for the worked scenarios: `root/cat` holds
`a.jpg` and `b.jpg`, `root/dog` holds `c.jpg`, and every other pattern
matches nothing (in particular `root/bird`, a missing subdirectory). -/
def demo_fs : String → List String := fun pat =>
  if pat = "root/cat/*.jpg" then ["a.jpg", "b.jpg"]
  else if pat = "root/dog/*.jpg" then ["c.jpg"]
  else []

/-- C6: with subdirectories `cat` (files `a.jpg`, `b.jpg`) and `dog` (file
`c.jpg`) and label names `["cat", "dog"]`, unshuffled directory discovery
returns exactly the records `(a.jpg, 0), (b.jpg, 0), (c.jpg, 1)`: each
label's files contiguous, labels in label-name order, sub-ordered by the
listing order. -/
theorem scenario_directory_discovery :
    find_files demo_fs id "root" ["cat", "dog"] false "jpg" =
      .ok (["a.jpg", "b.jpg", "c.jpg"], [0, 0, 1]) := by
  decide

/-- C5: on the manifest `{id 1, label dog}, {id 2, label cat},
{id 3, label cat}` with no explicit labels and no shuffling, manifest
discovery returns the label set `["cat", "dog"]` (sorted distinct values),
the paths `root/<id>.jpg` in row order, and the label indices `[1, 0, 0]`. -/
theorem scenario_manifest_discovery :
    find_files_with_label_csv "root" id
      [⟨"1", "dog"⟩, ⟨"2", "cat"⟩, ⟨"3", "cat"⟩] false "jpg" none =
      .ok (["root/1.jpg", "root/2.jpg", "root/3.jpg"], [1, 0, 0],
        ["cat", "dog"]) := by
  decide

/-- Successful shuffling returns the two projections of the reordered zip. -/
theorem shuffle_paths_labels_ok (sh : List (String × Nat) → List (String × Nat))
    (paths : List String) (labels : List Nat) (p : List String) (l : List Nat)
    (hres : shuffle_paths_labels sh paths labels = .ok (p, l)) :
    p = (sh (paths.zip labels)).map Prod.fst ∧
      l = (sh (paths.zip labels)).map Prod.snd ∧ sh (paths.zip labels) ≠ [] := by
  revert hres
  simp only [shuffle_paths_labels]
  split
  next h => intro hres; simp at hres
  next h =>
    intro hres
    simp only [Except.ok.injEq, Prod.mk.injEq] at hres
    refine ⟨hres.1.symm, hres.2.symm, ?_⟩
    simpa [List.isEmpty_iff] using h

/-- Failing shuffling means the (reordered) zip was empty, and the error is
the `ValueError` of unpacking an empty `zip`. -/
theorem shuffle_paths_labels_error (sh : List (String × Nat) → List (String × Nat))
    (paths : List String) (labels : List Nat) (e : PyError)
    (hres : shuffle_paths_labels sh paths labels = .error e) :
    e = .valueError ∧ sh (paths.zip labels) = [] := by
  revert hres
  simp only [shuffle_paths_labels]
  split
  next h =>
    intro hres
    simp only [Except.error.injEq] at hres
    exact ⟨hres.symm, List.isEmpty_iff.mp h⟩
  next h => intro hres; simp at hres

/-- The loop of `find_files` unfolded: a fold of this append-extend shape is
the flattened per-label blocks. -/
theorem foldl_extend_spec (f : Nat × String → List String) :
    ∀ (l : List (Nat × String)) (acc : List String × List Nat),
      l.foldl (fun acc p => (acc.1 ++ f p, acc.2 ++ List.replicate (f p).length p.1))
          acc =
        (acc.1 ++ (l.map f).flatten,
          acc.2 ++ (l.map fun p => List.replicate (f p).length p.1).flatten)
  | [], acc => by simp
  | p :: rest, acc => by
    simp only [List.foldl_cons, List.map_cons, List.flatten_cons,
      foldl_extend_spec f rest]
    simp [List.append_assoc]

/-- Closed form of `find_files_loop`: the concatenation, over the enumerated
labels, of each label's matching files, and of its index repeated once per
matching file. -/
theorem find_files_loop_spec (fs : String → List String) (dd : String)
    (labels : List String) (ext : String) :
    find_files_loop fs dd labels ext =
      ((labels.enum.map fun p => enum_files fs (path_join dd p.2) ext).flatten,
        (labels.enum.map fun p =>
          List.replicate (enum_files fs (path_join dd p.2) ext).length p.1).flatten) := by
  unfold find_files_loop
  simpa using
    foldl_extend_spec (fun p => enum_files fs (path_join dd p.2) ext) labels.enum ([], [])

/-- Both components of the `find_files` loop have the same length. -/
theorem find_files_loop_length (fs : String → List String) (dd : String)
    (labels : List String) (ext : String) :
    (find_files_loop fs dd labels ext).1.length =
      (find_files_loop fs dd labels ext).2.length := by
  rw [find_files_loop_spec]
  simp [List.length_flatten, List.map_map, Function.comp_def]

/-- Positions produced by `enumFrom` are below the offset plus the length. -/
theorem fst_lt_of_mem_enumFrom {α : Type} :
    ∀ (l : List α) (n : Nat) (p : Nat × α), p ∈ l.enumFrom n → p.1 < n + l.length
  | [], _, _, h => by simp at h
  | a :: rest, n, p, h => by
    rw [List.enumFrom_cons, List.mem_cons] at h
    rcases h with h | h
    · subst h; simp
    · have := fst_lt_of_mem_enumFrom rest (n + 1) p h
      simp only [List.length_cons]
      omega

/-- Every label index produced by the `find_files` loop is a valid position
into the label-name list. -/
theorem find_files_loop_snd_lt (fs : String → List String) (dd : String)
    (labels : List String) (ext : String) (x : Nat)
    (hx : x ∈ (find_files_loop fs dd labels ext).2) : x < labels.length := by
  rw [find_files_loop_spec] at hx
  rw [List.mem_flatten] at hx
  obtain ⟨s, hs, hxs⟩ := hx
  rw [List.mem_map] at hs
  obtain ⟨q, hq, rfl⟩ := hs
  obtain rfl := List.eq_of_mem_replicate hxs
  have h := fst_lt_of_mem_enumFrom labels 0 q hq
  simpa using h

/-- Lookup in the `key_id` dict fails exactly on values absent from the key
list, at any offset. -/
theorem key_id_from_none_iff (v : String) :
    ∀ (l : List String) (n : Nat), key_id_from n v l = none ↔ v ∉ l
  | [], n => by simp [key_id_from]
  | a :: rest, n => by
    simp only [key_id_from]
    cases h : key_id_from (n + 1) v rest with
    | some j =>
      have hv : v ∈ rest := by
        by_contra hc
        rw [← key_id_from_none_iff v rest (n + 1)] at hc
        rw [h] at hc
        exact Option.noConfusion hc
      simp [List.mem_cons, hv]
    | none =>
      have hv : v ∉ rest := (key_id_from_none_iff v rest (n + 1)).mp h
      by_cases hav : a = v
      · simp [hav, hv, List.mem_cons]
      · rw [if_neg hav]
        constructor
        · intro _ hc
          rcases List.mem_cons.mp hc with he | he
          · exact hav he.symm
          · exact hv he
        · intro _
          rfl

/-- Lookup in the `key_id` dict fails exactly on values absent from the key
list. -/
theorem key_id_none_iff (labels : List String) (v : String) :
    key_id labels v = none ↔ v ∉ labels :=
  key_id_from_none_iff v labels 0

/-- Indices found in the `key_id` dict built from offset `n` lie in the
window of positions of the key list. -/
theorem key_id_from_some_lt (v : String) :
    ∀ (l : List String) (n i : Nat),
      key_id_from n v l = some i → n ≤ i ∧ i < n + l.length
  | [], n, i => by simp [key_id_from]
  | a :: rest, n, i => by
    simp only [key_id_from]
    cases h : key_id_from (n + 1) v rest with
    | some j =>
      intro hj
      have hji : j = i := Option.some.inj hj
      have hb := key_id_from_some_lt v rest (n + 1) j h
      simp only [List.length_cons]
      omega
    | none =>
      by_cases hav : a = v
      · rw [if_pos hav]
        intro hi
        obtain rfl : n = i := Option.some.inj hi
        simp only [List.length_cons]
        omega
      · rw [if_neg hav]
        intro hi
        exact Option.noConfusion hi

/-- Indices found in the `key_id` dict are valid positions into the key
list. -/
theorem key_id_lt (labels : List String) (v : String) (i : Nat)
    (h : key_id labels v = some i) : i < labels.length := by
  have := key_id_from_some_lt v labels 0 i h
  omega

/-- On a duplicate-free key list, the `key_id` dict assigns each present
value its position in the list (shifted by the offset). -/
theorem key_id_from_nodup (v : String) :
    ∀ (l : List String) (n : Nat), l.Nodup → v ∈ l →
      key_id_from n v l = some (n + l.indexOf v)
  | [], n, _, hv => by simp at hv
  | a :: rest, n, hnd, hv => by
    obtain ⟨ha, hndr⟩ := List.nodup_cons.mp hnd
    simp only [key_id_from]
    by_cases hvr : v ∈ rest
    · rw [key_id_from_nodup v rest (n + 1) hndr hvr]
      have hva : v ≠ a := fun he => ha (he ▸ hvr)
      rw [List.indexOf_cons_ne rest hva.symm]
      simp only [Option.some.injEq]
      omega
    · have hva : v = a := by
        rcases List.mem_cons.mp hv with h | h
        · exact h
        · exact absurd h hvr
      rw [(key_id_from_none_iff v rest (n + 1)).mpr hvr]
      subst hva
      simp [List.indexOf_cons_self]

/-- On a duplicate-free key list, `key_id` is `indexOf` for present keys. -/
theorem key_id_nodup (labels : List String) (v : String) (hnd : labels.Nodup)
    (hv : v ∈ labels) : key_id labels v = some (labels.indexOf v) := by
  have := key_id_from_nodup v labels 0 hnd hv
  simpa using this

/-- A successful run of the manifest label-lookup loop returns one index per
row. -/
theorem lookup_label_indices_length (labels : List String) :
    ∀ (rows : List Row) (idxs : List Nat),
      lookup_label_indices labels rows = .ok idxs → idxs.length = rows.length
  | [], idxs => by
    intro h
    obtain rfl : ([] : List Nat) = idxs := Except.ok.inj h
    rfl
  | r :: rs, idxs => by
    simp only [lookup_label_indices]
    cases hk : key_id labels r.label with
    | none => intro h; exact absurd h (by simp)
    | some i =>
      cases hrec : lookup_label_indices labels rs with
      | error e => intro h; exact absurd h (by simp)
      | ok rest_idxs =>
        intro h
        obtain rfl : i :: rest_idxs = idxs := Except.ok.inj h
        have := lookup_label_indices_length labels rs rest_idxs hrec
        simp [this]

/-- Every index returned by the manifest label-lookup loop is a valid
position into the key list. -/
theorem lookup_label_indices_mem_lt (labels : List String) :
    ∀ (rows : List Row) (idxs : List Nat),
      lookup_label_indices labels rows = .ok idxs →
        ∀ x ∈ idxs, x < labels.length
  | [], idxs => by
    intro h
    obtain rfl : ([] : List Nat) = idxs := Except.ok.inj h
    simp
  | r :: rs, idxs => by
    simp only [lookup_label_indices]
    cases hk : key_id labels r.label with
    | none => intro h; exact absurd h (by simp)
    | some i =>
      cases hrec : lookup_label_indices labels rs with
      | error e => intro h; exact absurd h (by simp)
      | ok rest_idxs =>
        intro h
        obtain rfl : i :: rest_idxs = idxs := Except.ok.inj h
        intro x hx
        rcases List.mem_cons.mp hx with hx | hx
        · exact hx ▸ key_id_lt labels r.label i hk
        · exact lookup_label_indices_mem_lt labels rs rest_idxs hrec x hx

/-- The manifest label-lookup loop fails (necessarily with a `KeyError`) if
and only if some row's label value is absent from the key list. -/
theorem lookup_label_indices_keyerror_iff (labels : List String) :
    ∀ rows : List Row,
      (∃ v, lookup_label_indices labels rows = .error (.keyError v)) ↔
        ∃ r ∈ rows, r.label ∉ labels
  | [] => by simp [lookup_label_indices]
  | r :: rs => by
    simp only [lookup_label_indices]
    cases hk : key_id labels r.label with
    | none =>
      apply iff_of_true
      · exact ⟨r.label, rfl⟩
      · exact ⟨r, List.mem_cons_self r rs, (key_id_none_iff labels r.label).mp hk⟩
    | some i =>
      have hrl : r.label ∈ labels := by
        by_contra hc
        rw [← key_id_none_iff labels r.label, hk] at hc
        exact Option.noConfusion hc
      have ih := lookup_label_indices_keyerror_iff labels rs
      cases hrec : lookup_label_indices labels rs with
      | error e =>
        cases e with
        | keyError v =>
          apply iff_of_true
          · exact ⟨v, rfl⟩
          · obtain ⟨r', hr', hnot⟩ := ih.mp ⟨v, hrec⟩
            exact ⟨r', List.mem_cons_of_mem r hr', hnot⟩
        | valueError =>
          apply iff_of_false
          · rintro ⟨v, hv⟩
            exact PyError.noConfusion (Except.error.inj hv)
          · rintro ⟨r', hr', hnot⟩
            rcases List.mem_cons.mp hr' with h | h
            · exact hnot (h ▸ hrl)
            · obtain ⟨v, hv⟩ := ih.mpr ⟨r', h, hnot⟩
              rw [hrec] at hv
              exact PyError.noConfusion (Except.error.inj hv)
      | ok rest_idxs =>
        apply iff_of_false
        · rintro ⟨v, hv⟩
          exact Except.noConfusion hv
        · rintro ⟨r', hr', hnot⟩
          rcases List.mem_cons.mp hr' with h | h
          · exact hnot (h ▸ hrl)
          · obtain ⟨v, hv⟩ := ih.mpr ⟨r', h, hnot⟩
            rw [hrec] at hv
            exact Except.noConfusion hv

/-- When every row's label is a key and the key list is duplicate-free, the
manifest label-lookup loop succeeds and returns each row's label position. -/
theorem lookup_label_indices_complete (labels : List String)
    (hnd : labels.Nodup) :
    ∀ rows : List Row, (∀ r ∈ rows, r.label ∈ labels) →
      lookup_label_indices labels rows =
        .ok (rows.map fun r => labels.indexOf r.label)
  | [], _ => rfl
  | r :: rs, hall => by
    simp only [lookup_label_indices]
    rw [key_id_nodup labels r.label hnd (hall r (List.mem_cons_self r rs))]
    rw [lookup_label_indices_complete labels hnd rs
      (fun r' hr' => hall r' (List.mem_cons_of_mem r hr'))]
    simp

/-- The label set derived from the manifest itself contains every row's
label value. -/
theorem labels_used_none_complete (rows : List Row) (r : Row) (hr : r ∈ rows) :
    r.label ∈ labels_used none rows := by
  unfold labels_used
  rw [(List.perm_insertionSort _ _).mem_iff, List.mem_dedup]
  exact List.mem_map_of_mem Row.label hr

/-- The label set derived from the manifest is sorted, duplicate-free, and
holds exactly the values of the label column. -/
theorem labels_used_none_spec (rows : List Row) :
    (labels_used none rows).Sorted (· ≤ ·) ∧ (labels_used none rows).Nodup ∧
      ∀ v, v ∈ labels_used none rows ↔ v ∈ rows.map Row.label := by
  refine ⟨List.sorted_insertionSort _ _, ?_, fun v => ?_⟩
  · exact (List.perm_insertionSort _ _).nodup_iff.mpr (List.nodup_dedup _)
  · rw [labels_used, (List.perm_insertionSort _ _).mem_iff, List.mem_dedup]

/-- C1: shuffling a pair of equal-length path and label lists applies one
single permutation to both: for every index of the shuffled output, the
(path, label) pair found there stood at some common position of the
unshuffled inputs. -/
theorem shuffle_pairing_invariant (sh : List (String × Nat) → List (String × Nat))
    (paths : List String) (labels : List Nat) (p : List String) (l : List Nat)
    (hlen : paths.length = labels.length)
    (hsh : (sh (paths.zip labels)).Perm (paths.zip labels))
    (hres : shuffle_paths_labels sh paths labels = .ok (p, l))
    (i : Nat) (hi : i < p.length) :
    ∃ j, j < paths.length ∧ paths[j]? = p[i]? ∧ labels[j]? = l[i]? := by
  obtain ⟨hp, hl, -⟩ := shuffle_paths_labels_ok sh paths labels p l hres
  subst hp hl
  rw [List.length_map] at hi
  have hmem : (sh (paths.zip labels))[i] ∈ paths.zip labels :=
    hsh.mem_iff.mp (List.getElem_mem hi)
  obtain ⟨j, hj, hje⟩ := List.getElem_of_mem hmem
  have hjz := hj
  rw [List.length_zip] at hjz
  have hjp : j < paths.length := lt_of_lt_of_le hjz inf_le_left
  have hjl : j < labels.length := lt_of_lt_of_le hjz inf_le_right
  have hze : (paths.zip labels)[j] = (paths[j], labels[j]) := List.getElem_zip
  rw [hze] at hje
  refine ⟨j, hjp, ?_, ?_⟩
  · rw [List.getElem?_map, List.getElem?_eq_getElem hi, List.getElem?_eq_getElem hjp]
    simp [← hje]
  · rw [List.getElem?_map, List.getElem?_eq_getElem hi, List.getElem?_eq_getElem hjl]
    simp [← hje]

/-- Witness for C1 at a concrete reversal of two records. -/
theorem shuffle_pairing_invariant_witness :
    ∃ j, j < (["a", "b"] : List String).length ∧
      (["a", "b"] : List String)[j]? = (["b", "a"] : List String)[0]? ∧
      ([5, 7] : List Nat)[j]? = ([7, 5] : List Nat)[0]? :=
  shuffle_pairing_invariant List.reverse ["a", "b"] [5, 7] ["b", "a"] [7, 5]
    (by decide) (List.reverse_perm _) (by decide) 0 (by decide)

/-- C2: both labeled discovery operations always return exactly as many
label indices as file paths. -/
theorem labeled_discovery_same_length :
    (∀ fs sh dd labels shuffle ext p l,
        find_files fs sh dd labels shuffle ext = .ok (p, l) →
          p.length = l.length) ∧
      (∀ dd sh rows shuffle ext explicit p l ls,
        find_files_with_label_csv dd sh rows shuffle ext explicit =
            .ok (p, l, ls) →
          p.length = l.length) := by
  constructor
  · intro fs sh dd labels shuffle ext p l hres
    cases shuffle with
    | false =>
      simp only [find_files, Bool.false_eq_true, if_false] at hres
      have h := Except.ok.inj hres
      have hp : p = (find_files_loop fs dd labels ext).1 := (congrArg Prod.fst h).symm
      have hl : l = (find_files_loop fs dd labels ext).2 := (congrArg Prod.snd h).symm
      rw [hp, hl]
      exact find_files_loop_length fs dd labels ext
    | true =>
      simp only [find_files, if_true] at hres
      obtain ⟨hp, hl, -⟩ := shuffle_paths_labels_ok sh _ _ p l hres
      subst hp hl
      simp
  · intro dd sh rows shuffle ext explicit p l ls hres
    simp only [find_files_with_label_csv] at hres
    cases hlk : lookup_label_indices (labels_used explicit rows) rows with
    | error e => rw [hlk] at hres; exact absurd hres (by simp)
    | ok idxs =>
      rw [hlk] at hres
      cases shuffle with
      | false =>
        simp only [Bool.false_eq_true, if_false] at hres
        have h := Except.ok.inj hres
        have hp : p = rows.map fun row => path_join dd (row.id ++ "." ++ ext) :=
          (congrArg Prod.fst h).symm
        have hl : l = idxs := (congrArg (fun x => x.2.1) h).symm
        rw [hp, hl, List.length_map]
        exact (lookup_label_indices_length _ rows idxs hlk).symm
      | true =>
        simp only [if_true] at hres
        cases hshf : shuffle_paths_labels sh
            (rows.map fun row => path_join dd (row.id ++ "." ++ ext)) idxs with
        | error e => rw [hshf] at hres; exact absurd hres (by simp)
        | ok pl =>
          rw [hshf] at hres
          have h := Except.ok.inj hres
          have hp : p = pl.1 := (congrArg Prod.fst h).symm
          have hl : l = pl.2 := (congrArg (fun x => x.2.1) h).symm
          obtain ⟨h1, h2, -⟩ := shuffle_paths_labels_ok sh _ _ pl.1 pl.2 (by rw [hshf])
          rw [hp, hl, h1, h2]
          simp

/-- Witness for C2 on the concrete directory scenario. -/
theorem labeled_discovery_same_length_witness :
    (["a.jpg", "b.jpg", "c.jpg"] : List String).length =
      ([0, 0, 1] : List Nat).length :=
  labeled_discovery_same_length.1 demo_fs id "root" ["cat", "dog"] false "jpg"
    ["a.jpg", "b.jpg", "c.jpg"] [0, 0, 1] (by decide)

/-- C3: every label index in a discovery result is a valid position into the
label set that produced it: for `find_files` the label-name list, for
`find_files_with_label_csv` the returned (derived or explicit) label
list. -/
theorem label_index_validity :
    (∀ fs sh dd labels shuffle ext p l, (∀ c, (sh c).Perm c) →
        find_files fs sh dd labels shuffle ext = .ok (p, l) →
          ∀ x ∈ l, x < labels.length) ∧
      (∀ dd sh rows shuffle ext explicit p l ls, (∀ c, (sh c).Perm c) →
        find_files_with_label_csv dd sh rows shuffle ext explicit =
            .ok (p, l, ls) →
          ∀ x ∈ l, x < ls.length) := by
  constructor
  · intro fs sh dd labels shuffle ext p l hperm hres
    cases shuffle with
    | false =>
      simp only [find_files, Bool.false_eq_true, if_false] at hres
      have h := Except.ok.inj hres
      have hl : l = (find_files_loop fs dd labels ext).2 := (congrArg Prod.snd h).symm
      subst hl
      exact fun x hx => find_files_loop_snd_lt fs dd labels ext x hx
    | true =>
      simp only [find_files, if_true] at hres
      obtain ⟨-, hl, -⟩ := shuffle_paths_labels_ok sh _ _ p l hres
      subst hl
      intro x hx
      obtain ⟨pr, hpr, rfl⟩ := List.mem_map.mp hx
      have hpr2 := (hperm _).mem_iff.mp hpr
      have := (List.of_mem_zip hpr2).2
      exact find_files_loop_snd_lt fs dd labels ext pr.2 this
  · intro dd sh rows shuffle ext explicit p l ls hperm hres
    simp only [find_files_with_label_csv] at hres
    cases hlk : lookup_label_indices (labels_used explicit rows) rows with
    | error e => rw [hlk] at hres; exact absurd hres (by simp)
    | ok idxs =>
      rw [hlk] at hres
      cases shuffle with
      | false =>
        simp only [Bool.false_eq_true, if_false] at hres
        have h := Except.ok.inj hres
        have hl : l = idxs := (congrArg (fun x => x.2.1) h).symm
        have hls : ls = labels_used explicit rows := (congrArg (fun x => x.2.2) h).symm
        subst hl hls
        exact lookup_label_indices_mem_lt _ rows _ hlk
      | true =>
        simp only [if_true] at hres
        cases hshf : shuffle_paths_labels sh
            (rows.map fun row => path_join dd (row.id ++ "." ++ ext)) idxs with
        | error e => rw [hshf] at hres; exact absurd hres (by simp)
        | ok pl =>
          rw [hshf] at hres
          have h := Except.ok.inj hres
          have hl : l = pl.2 := (congrArg (fun x => x.2.1) h).symm
          have hls : ls = labels_used explicit rows := (congrArg (fun x => x.2.2) h).symm
          subst hl hls
          obtain ⟨-, h2, -⟩ := shuffle_paths_labels_ok sh _ _ pl.1 pl.2 (by rw [hshf])
          rw [h2]
          intro x hx
          obtain ⟨pr, hpr, rfl⟩ := List.mem_map.mp hx
          have hpr2 := (hperm _).mem_iff.mp hpr
          have := (List.of_mem_zip hpr2).2
          exact lookup_label_indices_mem_lt _ rows _ hlk pr.2 this

/-- Witness for C3 on the concrete directory scenario. -/
theorem label_index_validity_witness :
    (1 : Nat) < (["cat", "dog"] : List String).length :=
  label_index_validity.1 demo_fs id "root" ["cat", "dog"] false "jpg"
    ["a.jpg", "b.jpg", "c.jpg"] [0, 0, 1] (fun c => List.Perm.refl c)
    (by decide) 1 (by decide)

/-- C4: with no explicit override, manifest discovery derives its label set
by sorting the distinct label-column values lexicographically (sorted,
duplicate-free, holding exactly the occurring values) and assigns every row
the position of its label in that sorted list; being a pure function of the
rows, the assignment is identical on every run over the same manifest
content. -/
theorem manifest_label_assignment_deterministic (dd : String)
    (sh : List (String × Nat) → List (String × Nat)) (rows : List Row)
    (ext : String) (p : List String) (l : List Nat) (ls : List String)
    (hres : find_files_with_label_csv dd sh rows false ext none =
      .ok (p, l, ls)) :
    ls.Sorted (· ≤ ·) ∧ ls.Nodup ∧
      (∀ v, v ∈ ls ↔ v ∈ rows.map Row.label) ∧
      l = rows.map fun r => ls.indexOf r.label := by
  obtain ⟨hsort, hnd, hmem⟩ := labels_used_none_spec rows
  have hcompl : ∀ r ∈ rows, r.label ∈ labels_used none rows :=
    fun r hr => labels_used_none_complete rows r hr
  have hlk := lookup_label_indices_complete (labels_used none rows) hnd rows hcompl
  simp only [find_files_with_label_csv] at hres
  rw [hlk] at hres
  simp only [Bool.false_eq_true, if_false] at hres
  have h := Except.ok.inj hres
  have hl : l = rows.map fun r => (labels_used none rows).indexOf r.label :=
    (congrArg (fun x => x.2.1) h).symm
  have hls : ls = labels_used none rows := (congrArg (fun x => x.2.2) h).symm
  subst hls
  exact ⟨hsort, hnd, hmem, hl⟩

/-- Witness for C4 on the concrete manifest scenario. -/
theorem manifest_label_assignment_deterministic_witness :
    ([1, 0, 0] : List Nat) =
      ([Row.mk "1" "dog", Row.mk "2" "cat", Row.mk "3" "cat"]).map
        (fun r => (["cat", "dog"] : List String).indexOf r.label) :=
  (manifest_label_assignment_deterministic "root" id
    [Row.mk "1" "dog", Row.mk "2" "cat", Row.mk "3" "cat"] "jpg"
    ["root/1.jpg", "root/2.jpg", "root/3.jpg"] [1, 0, 0] ["cat", "dog"]
    (by decide)).2.2.2

/-- C7: manifest discovery fails with a `KeyError`-class error exactly when
some row's label value is absent from the label set in use, and with a
derived (non-explicit) label set this can never happen. -/
theorem manifest_keyerror_iff (dd : String)
    (sh : List (String × Nat) → List (String × Nat)) (rows : List Row)
    (shuffle : Bool) (ext : String) (explicit : Option (List String)) :
    ((∃ v, find_files_with_label_csv dd sh rows shuffle ext explicit =
        .error (.keyError v)) ↔
      ∃ r ∈ rows, r.label ∉ labels_used explicit rows) ∧
      (explicit = none →
        ∀ v, find_files_with_label_csv dd sh rows shuffle ext explicit ≠
          .error (.keyError v)) := by
  have hbase := lookup_label_indices_keyerror_iff (labels_used explicit rows) rows
  have hiff : (∃ v, find_files_with_label_csv dd sh rows shuffle ext explicit =
      .error (.keyError v)) ↔
      ∃ r ∈ rows, r.label ∉ labels_used explicit rows := by
    constructor
    · rintro ⟨v, hv⟩
      apply hbase.mp
      simp only [find_files_with_label_csv] at hv
      cases hlk : lookup_label_indices (labels_used explicit rows) rows with
      | error e =>
        rw [hlk] at hv
        have he : e = .keyError v := Except.error.inj hv
        exact ⟨v, congrArg Except.error he⟩
      | ok idxs =>
        rw [hlk] at hv
        cases shuffle with
        | false => simp at hv
        | true =>
          simp only [if_true] at hv
          cases hshf : shuffle_paths_labels sh
              (rows.map fun row => path_join dd (row.id ++ "." ++ ext)) idxs with
          | error e2 =>
            rw [hshf] at hv
            obtain ⟨he2, -⟩ := shuffle_paths_labels_error sh _ _ e2 hshf
            subst he2
            exact PyError.noConfusion (Except.error.inj hv)
          | ok pl =>
            rw [hshf] at hv
            simp at hv
    · intro hmissing
      obtain ⟨v, hv⟩ := hbase.mpr hmissing
      refine ⟨v, ?_⟩
      simp only [find_files_with_label_csv]
      rw [hv]
  refine ⟨hiff, ?_⟩
  intro hnone v hv
  subst hnone
  obtain ⟨r, hr, hnot⟩ := hiff.mp ⟨v, hv⟩
  exact hnot (labels_used_none_complete rows r hr)

/-- Witness for C7: a complete derived label set never yields a
`KeyError`-class failure. -/
theorem manifest_keyerror_iff_witness :
    find_files_with_label_csv "root" id [Row.mk "1" "dog"] false "jpg" none ≠
      .error (.keyError "dog") :=
  (manifest_keyerror_iff "root" id [Row.mk "1" "dog"] false "jpg" none).2
    rfl "dog"

/-- C8: a label name whose subdirectory yields no matches (in particular a
missing `bird/` directory) contributes zero records and no error: with label
names `["cat", "bird"]` the result is exactly `cat`'s files, all with label
index 0, and the call returns normally. -/
theorem missing_subdir_nonfatal (fs : String → List String)
    (sh : List (String × Nat) → List (String × Nat)) (dd ext : String)
    (hmiss : enum_files fs (path_join dd "bird") ext = []) :
    find_files fs sh dd ["cat", "bird"] false ext =
      .ok (enum_files fs (path_join dd "cat") ext,
        List.replicate (enum_files fs (path_join dd "cat") ext).length 0) := by
  simp [find_files, find_files_loop, hmiss, List.enum_cons, List.enumFrom_cons,
    List.enumFrom_nil]

/-- Witness for C8 on the concrete filesystem (no `root/bird` directory). -/
theorem missing_subdir_nonfatal_witness :
    find_files demo_fs id "root" ["cat", "bird"] false "jpg" =
      .ok (enum_files demo_fs (path_join "root" "cat") "jpg",
        List.replicate
          (enum_files demo_fs (path_join "root" "cat") "jpg").length 0) :=
  missing_subdir_nonfatal demo_fs id "root" "jpg" (by decide)

/-- C10: with shuffling requested, labeled discovery of zero files raises
the empty-unpacking `ValueError` instead of returning two empty lists, and
neither labeled discovery operation can return an empty path list
successfully. -/
theorem shuffle_empty_raises (fs : String → List String)
    (sh : List (String × Nat) → List (String × Nat)) (dd ext : String)
    (labels : List String) (rows : List Row) (explicit : Option (List String))
    (hsh : ∀ c : List (String × Nat), (sh c).Perm c) :
    shuffle_paths_labels sh [] [] = .error .valueError ∧
      ((find_files_loop fs dd labels ext).1 = [] →
        find_files fs sh dd labels true ext = .error .valueError) ∧
      find_files_with_label_csv dd sh [] true ext explicit =
        .error .valueError ∧
      (∀ p l, find_files fs sh dd labels true ext = .ok (p, l) → p ≠ []) ∧
      (∀ p l ls, find_files_with_label_csv dd sh rows true ext explicit =
          .ok (p, l, ls) → p ≠ []) := by
  have hnil : sh [] = [] := (hsh []).eq_nil
  have hempty : shuffle_paths_labels sh [] [] = .error .valueError := by
    simp [shuffle_paths_labels, hnil]
  refine ⟨hempty, ?_, ?_, ?_, ?_⟩
  · intro h1
    have h2 : (find_files_loop fs dd labels ext).2 = [] := by
      have hlen := find_files_loop_length fs dd labels ext
      rw [h1] at hlen
      exact List.length_eq_zero.mp hlen.symm
    simp only [find_files, if_true]
    rw [h1, h2]
    exact hempty
  · simp [find_files_with_label_csv, lookup_label_indices, hempty]
  · intro p l hres
    simp only [find_files, if_true] at hres
    obtain ⟨hp, -, hne⟩ := shuffle_paths_labels_ok sh _ _ p l hres
    subst hp
    intro hc
    rw [List.map_eq_nil_iff] at hc
    exact hne hc
  · intro p l ls hres
    simp only [find_files_with_label_csv] at hres
    cases hlk : lookup_label_indices (labels_used explicit rows) rows with
    | error e => rw [hlk] at hres; simp at hres
    | ok idxs =>
      rw [hlk] at hres
      simp only [if_true] at hres
      cases hshf : shuffle_paths_labels sh
          (rows.map fun row => path_join dd (row.id ++ "." ++ ext)) idxs with
      | error e => rw [hshf] at hres; simp at hres
      | ok pl =>
        rw [hshf] at hres
        have h := Except.ok.inj hres
        have hp : p = pl.1 := (congrArg Prod.fst h).symm
        subst hp
        obtain ⟨h1, -, hne⟩ := shuffle_paths_labels_ok sh _ _ pl.1 pl.2
          (by rw [hshf])
        rw [h1]
        intro hc
        rw [List.map_eq_nil_iff] at hc
        exact hne hc

/-- Witness for C10 at the empty shuffle. -/
theorem shuffle_empty_raises_witness :
    shuffle_paths_labels id [] [] = .error .valueError :=
  (shuffle_empty_raises (fun _ => []) id "root" "jpg" ["cat"] [] none
    (fun c => List.Perm.refl c)).1

end Fenwicks
